import Mathlib

/-!
Verification of the trie (prefix map) implementation in `src/lib.rs`.

The Rust `Trie<K, V>` struct stores an optional value `val` and a
`HashMap<K, Trie<K, V>>` of children.  We embed the `HashMap` as an
association list together with a well-formedness predicate stating that
sibling keys are distinct (the intrinsic invariant of a `HashMap`).
Panics (`assert!`, `unwrap`, out-of-bounds indexing) are modelled by
`Option`-valued functions where `none` is a panic.
-/

universe u v

/-- The trie data model from `src/lib.rs`: `val: Option<V>`,
`children: HashMap<K, Trie<K, V>>` (embedded as an association list). -/
inductive Trie (K : Type u) (V : Type v) : Type (max u v) where
  | mk (val : Option V) (children : List (K × Trie K V)) : Trie K V

namespace Trie

variable {K : Type u} {V : Type v}

/-- The `val` field of a trie node. -/
def val : Trie K V → Option V
  | .mk v _ => v

/-- The `children` field of a trie node. -/
def children : Trie K V → List (K × Trie K V)
  | .mk _ cs => cs

@[simp] theorem val_mk (v : Option V) (cs : List (K × Trie K V)) :
    (Trie.mk v cs).val = v := rfl

@[simp] theorem children_mk (v : Option V) (cs : List (K × Trie K V)) :
    (Trie.mk v cs).children = cs := rfl

/-- `HashMap::get` / `contains_key` on the association list of children:
returns the child stored under key `k`, if any. -/
def lookupChild [DecidableEq K] (k : K) : List (K × Trie K V) → Option (Trie K V)
  | [] => none
  | (k', c) :: rest => if k = k' then some c else lookupChild k rest

/-- In-place update through `HashMap::get_mut`: replace the child stored
under key `k` (the first entry with that key) by `c`. -/
def replaceChild [DecidableEq K] (k : K) (c : Trie K V) :
    List (K × Trie K V) → List (K × Trie K V)
  | [] => []
  | (k', c') :: rest =>
      if k = k' then (k', c) :: rest else (k', c') :: replaceChild k c rest

/-- `Trie::new`: a single node with no children and the given optional value. -/
def new (val : Option V) : Trie K V := .mk val []

/-- `Trie::insert`: walks the key sequence, lazily creating branch nodes.
The Rust code `assert!`s (panics) when the target node already holds a
value; the panic is modelled by returning `none`. -/
def insert [DecidableEq K] : Trie K V → List K → V → Option (Trie K V)
  | t, [], v =>
      match t.val with
      | some _ => none
      | none => some (.mk (some v) t.children)
  | t, first :: remaining, v =>
      match lookupChild first t.children with
      | some c =>
          match c.insert remaining v with
          | some c' => some (.mk t.val (replaceChild first c' t.children))
          | none => none
      | none =>
          match (Trie.new none).insert remaining v with
          | some c' => some (.mk t.val (t.children ++ [(first, c')]))
          | none => none

/-- `Trie::fetch`: walks the key sequence and returns the value stored at
exactly that path, if any. -/
def fetch [DecidableEq K] : Trie K V → List K → Option V
  | t, [] => t.val
  | t, first :: remaining =>
      match lookupChild first t.children with
      | some c => c.fetch remaining
      | none => none

/-- `Trie::fetch` with every potential panic point of the Rust code made
explicit: the `assert!(!keys.is_empty())`, the `split_first().unwrap()`
and the `children[first]` indexing.  The outer `none` is a panic. -/
def fetchChecked [DecidableEq K] : Trie K V → List K → Option (Option V)
  | t, [] => some t.val
  | t, first :: remaining =>
      if (lookupChild first t.children).isSome then
        match lookupChild first t.children with
        | some c => c.fetchChecked remaining
        | none => none
      else some none

end Trie

mutual
/-- Number of nodes of a trie, with children weighted so that the measure
also bounds the work of one iterator pull (used for termination). -/
def Trie.size {K : Type u} {V : Type v} : Trie K V → Nat
  | .mk _ cs => 1 + 2 * cs.length + sizeChildren cs
/-- Sum of the sizes of the tries in a child list. -/
def sizeChildren {K : Type u} {V : Type v} : List (K × Trie K V) → Nat
  | [] => 0
  | (_, c) :: rest => Trie.size c + sizeChildren rest
end

theorem size_lt_of_mem_children {K : Type u} {V : Type v}
    (cs : List (K × Trie K V)) :
    ∀ k c, (k, c) ∈ cs → Trie.size c < 1 + sizeChildren cs := by
  induction cs with
  | nil => intro k c h; cases h
  | cons hd tl ih =>
      intro k c h
      rcases List.mem_cons.mp h with h | h
      · subst h
        simp [sizeChildren]
        omega
      · have := ih _ _ h
        simp [sizeChildren]
        omega

/-- Induction over a trie via its children. -/
theorem Trie.my_ind {K : Type u} {V : Type v} {motive : Trie K V → Prop}
    (h : ∀ val cs, (∀ k c, (k, c) ∈ cs → motive c) → motive (.mk val cs)) :
    ∀ t, motive t := by
  intro t
  have H : ∀ n (t : Trie K V), Trie.size t ≤ n → motive t := by
    intro n
    induction n with
    | zero => intro t ht; cases t with | mk v cs => simp [Trie.size] at ht
    | succ n ih =>
        intro t ht
        cases t with
        | mk v cs =>
            apply h
            intro k c hm
            apply ih
            have := size_lt_of_mem_children cs k c hm
            simp [Trie.size] at ht
            omega
  exact H (Trie.size t) t le_rfl

/-- Well-formedness: the intrinsic `HashMap` invariant that no two children
of the same node share a key, at every node. -/
inductive Trie.WF {K : Type u} {V : Type v} : Trie K V → Prop where
  | mk (val : Option V) (cs : List (K × Trie K V)) :
      (cs.map Prod.fst).Nodup → (∀ k c, (k, c) ∈ cs → Trie.WF c) →
      Trie.WF (.mk val cs)

mutual
/-- Pre-order list of all `(path, value)` pairs of a trie, with `ka` the
path accumulated above the node: the node's own value first, then the
entries of the children in sibling order. -/
def Trie.toList {K : Type u} {V : Type v} : List K → Trie K V → List (List K × V)
  | ka, .mk val cs =>
      (match val with
       | some v => [(ka, v)]
       | none => []) ++ toListChildren ka cs
/-- Concatenation of the entry lists of a list of children. -/
def toListChildren {K : Type u} {V : Type v} :
    List K → List (K × Trie K V) → List (List K × V)
  | _, [] => []
  | ka, (k, c) :: rest => Trie.toList (ka ++ [k]) c ++ toListChildren ka rest
end

namespace Trie

variable {K : Type u} {V : Type v}

/-- Fold of `insert` over a list of `(path, value)` instructions, failing
as soon as one insert fails: a trie "built from a sequence of inserts". -/
def insertAll [DecidableEq K] : Trie K V → List (List K × V) → Option (Trie K V)
  | t, [] => some t
  | t, (p, v) :: rest =>
      match t.insert p v with
      | some t' => t'.insertAll rest
      | none => none

end Trie

/-- Two paths share a (nonempty) common initial segment, with two empty
paths counted as sharing (they are the same root path). -/
def sharesStart {K : Type u} : List K → List K → Prop
  | [], [] => True
  | q :: _, r :: _ => q = r
  | _, _ => False

/-- The state of `TrieIter` from `src/lib.rs`: the borrowed node `inner`,
the lazily built child iterators, the index of the active child, whether
the node's own value has been visited, and the accumulated path. -/
inductive TrieIter (K : Type u) (V : Type v) : Type (max u v) where
  | mk (inner : Trie K V) (childIters : Option (List (TrieIter K V)))
       (current : Nat) (didSelf : Bool) (keysAbove : List K) : TrieIter K V

/-- Result of one pull of `TrieIter::next`, together with the mutated
iterator state: either an item was yielded or exhaustion was signalled. -/
inductive IterStep (K : Type u) (V : Type v) : Type (max u v) where
  | yield (path : List K) (v : V) (it : TrieIter K V) : IterStep K V
  | done (it : TrieIter K V) : IterStep K V

mutual
/-- Termination measure for one pull of an iterator. -/
def iterW {K : Type u} {V : Type v} : TrieIter K V → Nat
  | .mk inner none _ didSelf _ => if didSelf then 1 else 1 + Trie.size inner
  | .mk _ (some l) _ _ _ => listW l + l.length + 2
/-- Sum of the measures of a list of iterators. -/
def listW {K : Type u} {V : Type v} : List (TrieIter K V) → Nat
  | [] => 0
  | it :: rest => iterW it + listW rest
end

section IterDef

variable {K : Type u} {V : Type v}

theorem listW_drop_le (l : List (TrieIter K V)) (n : Nat) :
    listW (l.drop n) ≤ listW l := by
  induction l generalizing n with
  | nil => simp [listW]
  | cons hd tl ih =>
      cases n with
      | zero => simp
      | succ n =>
          simp only [List.drop_succ_cons]
          calc listW (tl.drop n) ≤ listW tl := ih n
            _ ≤ iterW hd + listW tl := Nat.le_add_left _ _
            _ = listW (hd :: tl) := rfl

theorem listW_drop_decomp (l : List (TrieIter K V)) (n : Nat) (ci : TrieIter K V)
    (h : l[n]? = some ci) :
    listW (l.drop n) = iterW ci + listW (l.drop (n + 1)) := by
  induction l generalizing n with
  | nil => simp at h
  | cons hd tl ih =>
      cases n with
      | zero =>
          simp at h
          subst h
          simp [listW]
      | succ n =>
          simp at h
          simpa [listW] using ih n h

theorem drop_succ_set (l : List (TrieIter K V)) (n : Nat) (a : TrieIter K V) :
    (l.set n a).drop (n + 1) = l.drop (n + 1) := by
  induction l generalizing n with
  | nil => simp
  | cons hd tl ih =>
      cases n with
      | zero => simp
      | succ n => simpa using ih n

theorem listW_built (ka : List K) (cs : List (K × Trie K V)) :
    listW (cs.map (fun kc => TrieIter.mk kc.2 none 0 false (ka ++ [kc.1])))
      = cs.length + sizeChildren cs := by
  induction cs with
  | nil => simp [listW, sizeChildren]
  | cons hd tl ih =>
      simp only [List.map_cons, listW, sizeChildren, List.length_cons]
      rw [ih]
      simp [iterW, sizeChildren]
      omega

mutual

/-- `TrieIter::next` from `src/lib.rs`.  The outer `none` models a panic:
the two `assert!`s when the child iterators would be rebuilt, and the
`child_iters[current]` indexing.  On the first pull the node marks itself
visited, builds one sub-iterator per child (fixing the visitation order),
and yields its own value if present; afterwards it pulls from the active
child iterator, advancing `current` past exhausted children. -/
def TrieIter.next : TrieIter K V → Option (IterStep K V)
  | .mk inner childIters current didSelf keysAbove =>
    if hds : didSelf then
      nextRest inner childIters current keysAbove
    else
      if hemp : inner.children.isEmpty then
        match inner.val with
        | some v => some (.yield keysAbove v (.mk inner childIters current true keysAbove))
        | none => nextRest inner childIters current keysAbove
      else
        if h : childIters.isSome ∨ current ≠ 0 then none
        else
          let built := inner.children.map
            (fun kc => TrieIter.mk kc.2 none 0 false (keysAbove ++ [kc.1]))
          match inner.val with
          | some v => some (.yield keysAbove v (.mk inner (some built) current true keysAbove))
          | none => nextRest inner (some built) current keysAbove
  termination_by it => iterW it
  decreasing_by
  · cases childIters with
    | none => cases didSelf <;> simp [iterW]
    | some l =>
        simp [iterW]
        have h1 := listW_drop_le l current
        have h2 : l.length - current ≤ l.length := Nat.sub_le _ _
        omega
  · cases childIters with
    | none => cases didSelf <;> simp [iterW]
    | some l =>
        simp [iterW]
        have h1 := listW_drop_le l current
        have h2 : l.length - current ≤ l.length := Nat.sub_le _ _
        omega
  · push_neg at h
    obtain ⟨h1, h2⟩ := h
    have hnone : childIters = none := by
      cases childIters with
      | none => rfl
      | some _ => simp at h1
    subst hnone
    subst h2
    simp only [Bool.not_eq_true] at hds
    subst hds
    simp only [iterW, if_neg Bool.false_ne_true, List.drop_zero]
    rw [listW_built]
    cases inner with
    | mk v cs => simp [Trie.children, Trie.size]; omega

/-- The part of `TrieIter::next` after `did_self` is set: signal
exhaustion when no child iterators were built, else run the child loop. -/
def nextRest (inner : Trie K V) (childIters : Option (List (TrieIter K V)))
    (current : Nat) (keysAbove : List K) : Option (IterStep K V) :=
  match childIters with
  | none => some (.done (.mk inner none current true keysAbove))
  | some l => nextLoop inner l current keysAbove
  termination_by
    match childIters with
    | none => 0
    | some l => listW (l.drop current) + (l.length - current) + 1
  decreasing_by
  simp

/-- The `loop` of `TrieIter::next`: pull from `child_iters[current]`,
propagate a yielded item, advance past an exhausted child, signal
exhaustion past the last child.  Indexing out of bounds is the panic
case `none`. -/
def nextLoop (inner : Trie K V) (l : List (TrieIter K V)) (current : Nat)
    (keysAbove : List K) : Option (IterStep K V) :=
  if hlt : current < l.length then
    match l[current].next with
    | none => none
    | some (.yield p v ci') =>
        some (.yield p v (.mk inner (some (l.set current ci')) current true keysAbove))
    | some (.done ci') =>
        if current + 1 >= l.length then
          some (.done (.mk inner (some (l.set current ci')) (current + 1) true keysAbove))
        else nextLoop inner (l.set current ci') (current + 1) keysAbove
  else none
  termination_by listW (l.drop current) + (l.length - current)
  decreasing_by
  · have hd := listW_drop_decomp l current l[current]
      (List.getElem?_eq_getElem hlt)
    have := listW_drop_le l (current + 1)
    omega
  · rename_i hle
    push_neg at hle
    have hd := listW_drop_decomp l current l[current]
      (List.getElem?_eq_getElem hlt)
    rw [drop_succ_set, List.length_set]
    omega

end

end IterDef

namespace Trie

variable {K : Type u} {V : Type v}

/-- `Trie::iter_impl`: a fresh iterator over `t` with accumulated path
`keysAbove`. -/
def iter_impl (t : Trie K V) (keysAbove : List K) : TrieIter K V :=
  .mk t none 0 false keysAbove

/-- `Trie::iter`. -/
def iter (t : Trie K V) : TrieIter K V := t.iter_impl []

end Trie

/-- The `TrieKeyIter` wrapper from `src/lib.rs`. -/
structure TrieKeyIter (K : Type u) (V : Type v) : Type (max u v) where
  iter : TrieIter K V

/-- The `TrieValueIter` wrapper from `src/lib.rs`. -/
structure TrieValueIter (K : Type u) (V : Type v) : Type (max u v) where
  iter : TrieIter K V

/-- `Trie::keys`. -/
def Trie.keys {K : Type u} {V : Type v} (t : Trie K V) : TrieKeyIter K V :=
  ⟨t.iter_impl []⟩

/-- `Trie::values`. -/
def Trie.values {K : Type u} {V : Type v} (t : Trie K V) : TrieValueIter K V :=
  ⟨t.iter_impl []⟩

/-- Result of one pull of `TrieKeyIter::next`. -/
inductive KeyStep (K : Type u) (V : Type v) : Type (max u v) where
  | yield (path : List K) (it : TrieKeyIter K V) : KeyStep K V
  | done (it : TrieKeyIter K V) : KeyStep K V

/-- Result of one pull of `TrieValueIter::next`. -/
inductive ValueStep (K : Type u) (V : Type v) : Type (max u v) where
  | yield (v : V) (it : TrieValueIter K V) : ValueStep K V
  | done (it : TrieValueIter K V) : ValueStep K V

/-- `TrieKeyIter::next`: project the first component of the pair. -/
def TrieKeyIter.next {K : Type u} {V : Type v} :
    TrieKeyIter K V → Option (KeyStep K V)
  | ⟨it⟩ =>
      match it.next with
      | none => none
      | some (.yield p _ it') => some (.yield p ⟨it'⟩)
      | some (.done it') => some (.done ⟨it'⟩)

/-- `TrieValueIter::next`: project the second component of the pair. -/
def TrieValueIter.next {K : Type u} {V : Type v} :
    TrieValueIter K V → Option (ValueStep K V)
  | ⟨it⟩ =>
      match it.next with
      | none => none
      | some (.yield _ v it') => some (.yield v ⟨it'⟩)
      | some (.done it') => some (.done ⟨it'⟩)

/-- The (finite) sequence produced by pulling an iterator until it
signals exhaustion: every pull succeeds (no panic) and the items, in
order, are `xs`. -/
inductive Produces {K : Type u} {V : Type v} :
    TrieIter K V → List (List K × V) → Prop where
  | done (it it' : TrieIter K V) :
      it.next = some (.done it') → Produces it []
  | yield (it it' : TrieIter K V) (p : List K) (v : V) (xs : List (List K × V)) :
      it.next = some (.yield p v it') → Produces it' xs →
      Produces it ((p, v) :: xs)

/-- The sequence produced by a key iterator until exhaustion. -/
inductive ProducesK {K : Type u} {V : Type v} :
    TrieKeyIter K V → List (List K) → Prop where
  | done (it it' : TrieKeyIter K V) :
      it.next = some (.done it') → ProducesK it []
  | yield (it it' : TrieKeyIter K V) (p : List K) (xs : List (List K)) :
      it.next = some (.yield p it') → ProducesK it' xs →
      ProducesK it (p :: xs)

/-- The sequence produced by a value iterator until exhaustion. -/
inductive ProducesV {K : Type u} {V : Type v} :
    TrieValueIter K V → List V → Prop where
  | done (it it' : TrieValueIter K V) :
      it.next = some (.done it') → ProducesV it []
  | yield (it it' : TrieValueIter K V) (v : V) (xs : List V) :
      it.next = some (.yield v it') → ProducesV it' xs →
      ProducesV it (v :: xs)

/-- Pointwise `Produces` over a list of iterators, concatenating the
produced sequences. -/
inductive ProducesAll {K : Type u} {V : Type v} :
    List (TrieIter K V) → List (List K × V) → Prop where
  | nil : ProducesAll [] []
  | cons (c : TrieIter K V) (rest : List (TrieIter K V))
      (xs ys : List (List K × V)) :
      Produces c xs → ProducesAll rest ys →
      ProducesAll (c :: rest) (xs ++ ys)

/-- Modelled from the spec: the serialization target.  The repository
derives `Serialize`/`Deserialize` and encodes through the external
`serde_cbor` crate, which is not part of `src/`; per §4.3 of the spec the
wire form is a structural mirror of the node (an abstract CBOR-like value
tree), with `Option` encoded untagged: `None` becomes the `null` marker
and `Some v` becomes the encoding of `v` itself. -/
inductive CV : Type where
  | null : CV
  | bool (b : Bool) : CV
  | int (n : Int) : CV
  | arr (xs : List CV) : CV
  | map (kvs : List (CV × CV)) : CV

/-- Whether a serialized value is the `null` marker. -/
def CV.isNull : CV → Bool
  | .null => true
  | _ => false

/-- Modelled from the spec: the untagged `Option` encoding of `serde`,
the source of the documented `None` / unit-value ambiguity — `None`
encodes as `null`, `Some v` as the encoding of `v` alone. -/
def encodeOpt {V : Type v} (encV : V → CV) : Option V → CV
  | none => .null
  | some v => encV v

/-- Modelled from the spec: decoding an untagged `Option` — `null` is
read back as `None`, anything else is decoded as the payload. -/
def decodeOpt {V : Type v} (decV : CV → Option V) (cv : CV) : Option (Option V) :=
  if cv.isNull then some none
  else
    match decV cv with
    | some v => some (some v)
    | none => none

mutual
/-- Modelled from the spec: a node serializes as (optional value, mapping
from key to child node), recursively. -/
def encodeTrie {K : Type u} {V : Type v} (encK : K → CV) (encV : V → CV) :
    Trie K V → CV
  | .mk val cs => .arr [encodeOpt encV val, .map (encodeChildren encK encV cs)]
/-- Encoding of the child mapping, entry by entry. -/
def encodeChildren {K : Type u} {V : Type v} (encK : K → CV) (encV : V → CV) :
    List (K × Trie K V) → List (CV × CV)
  | [] => []
  | (k, c) :: rest => (encK k, encodeTrie encK encV c) :: encodeChildren encK encV rest
end

mutual
/-- Modelled from the spec: decoding reconstructs the tree shape from the
structural mirror, failing (`none`) on any malformed input. -/
def decodeTrie {K : Type u} {V : Type v} (decK : CV → Option K)
    (decV : CV → Option V) : CV → Option (Trie K V)
  | .arr [cval, .map centries] =>
      match decodeOpt decV cval, decodeChildren decK decV centries with
      | some val, some cs => some (.mk val cs)
      | _, _ => none
  | _ => none
/-- Decoding of a child mapping, entry by entry. -/
def decodeChildren {K : Type u} {V : Type v} (decK : CV → Option K)
    (decV : CV → Option V) : List (CV × CV) → Option (List (K × Trie K V))
  | [] => some []
  | (ck, cc) :: rest =>
      match decK ck, decodeTrie decK decV cc, decodeChildren decK decV rest with
      | some k, some c, some cs => some ((k, c) :: cs)
      | _, _, _ => none
end

/-! ### Basic lemmas about `lookupChild`, `replaceChild`, `insert`, `fetch` -/

namespace Trie

variable {K : Type u} {V : Type v} [DecidableEq K]

theorem lookupChild_replaceChild_self (k : K) (c' : Trie K V)
    (cs : List (K × Trie K V)) (c : Trie K V) (h : lookupChild k cs = some c) :
    lookupChild k (replaceChild k c' cs) = some c' := by
  induction cs with
  | nil => simp [lookupChild] at h
  | cons hd tl ih =>
      obtain ⟨k₀, c₀⟩ := hd
      by_cases hk : k = k₀
      · subst hk
        simp [replaceChild, lookupChild]
      · simp only [lookupChild, if_neg hk] at h
        simp [replaceChild, lookupChild, if_neg hk, ih h]

theorem lookupChild_replaceChild_ne (j k : K) (c' : Trie K V)
    (cs : List (K × Trie K V)) (h : j ≠ k) :
    lookupChild j (replaceChild k c' cs) = lookupChild j cs := by
  induction cs with
  | nil => simp [replaceChild]
  | cons hd tl ih =>
      obtain ⟨k₀, c₀⟩ := hd
      by_cases hk : k = k₀
      · subst hk
        simp [replaceChild, lookupChild, if_neg h]
      · by_cases hj : j = k₀
        · subst hj
          simp [replaceChild, if_neg hk, lookupChild]
        · simp [replaceChild, if_neg hk, lookupChild, if_neg hj, ih]

theorem lookupChild_append_self (k : K) (c' : Trie K V)
    (cs : List (K × Trie K V)) (h : lookupChild k cs = none) :
    lookupChild k (cs ++ [(k, c')]) = some c' := by
  induction cs with
  | nil => simp [lookupChild]
  | cons hd tl ih =>
      obtain ⟨k₀, c₀⟩ := hd
      by_cases hk : k = k₀
      · simp [lookupChild, if_pos hk] at h
      · simp only [lookupChild, if_neg hk] at h
        simp [lookupChild, if_neg hk, ih h]

theorem lookupChild_append_ne (j k : K) (c' : Trie K V)
    (cs : List (K × Trie K V)) (h : j ≠ k) :
    lookupChild j (cs ++ [(k, c')]) = lookupChild j cs := by
  induction cs with
  | nil => simp [lookupChild, if_neg h]
  | cons hd tl ih =>
      obtain ⟨k₀, c₀⟩ := hd
      by_cases hj : j = k₀
      · simp [lookupChild, if_pos hj]
      · simp [lookupChild, if_neg hj, ih]

/-- Inserting into a fresh value-free node always succeeds. -/
theorem insert_new_isSome (p : List K) (v : V) :
    ((Trie.new none : Trie K V).insert p v).isSome := by
  induction p with
  | nil => simp [insert, new, val]
  | cons k rest ih =>
      have hstep : (Trie.new none : Trie K V).insert (k :: rest) v =
          match (Trie.new none : Trie K V).insert rest v with
          | some c' => some (.mk none [(k, c')])
          | none => none := rfl
      rw [hstep]
      cases hrec : (Trie.new none : Trie K V).insert rest v with
      | some c' => simp
      | none => rw [hrec] at ih; simp at ih

/-- `insert` panics exactly when the target path already holds a value. -/
theorem insert_eq_none_iff (t : Trie K V) (p : List K) (v : V) :
    t.insert p v = none ↔ (t.fetch p).isSome := by
  induction p generalizing t with
  | nil =>
      cases t with
      | mk tv cs =>
          cases tv <;> simp [insert, fetch, val]
  | cons k rest ih =>
      cases t with
      | mk tv cs =>
          simp only [insert, fetch, children]
          match hl : lookupChild k cs with
          | some c =>
              simp only []
              have := ih c
              match hrec : c.insert rest v with
              | some c' => simpa [hrec] using this
              | none => simpa [hrec] using this
          | none =>
              simp only []
              have hs := insert_new_isSome (K := K) (V := V) rest v
              match hrec : (Trie.new none : Trie K V).insert rest v with
              | some c' => simp
              | none => rw [hrec] at hs; simp at hs

/-- After a successful insert at `p`, `fetch p` returns the new value. -/
theorem fetch_insert_self (t t' : Trie K V) (p : List K) (v : V)
    (h : t.insert p v = some t') : t'.fetch p = some v := by
  induction p generalizing t t' with
  | nil =>
      cases t with
      | mk tv cs =>
          cases tv with
          | some w => simp [insert, val] at h
          | none =>
              simp only [insert, val] at h
              cases h
              simp [fetch, val]
  | cons k rest ih =>
      cases t with
      | mk tv cs =>
          simp only [insert, children] at h
          match hl : lookupChild k cs with
          | some c =>
              rw [hl] at h
              simp only [] at h
              match hrec : c.insert rest v with
              | some c' =>
                  rw [hrec] at h
                  cases h
                  simp only [fetch, children,
                    lookupChild_replaceChild_self k c' cs c hl]
                  exact ih c c' hrec
              | none => rw [hrec] at h; cases h
          | none =>
              rw [hl] at h
              simp only [] at h
              match hrec : (Trie.new none : Trie K V).insert rest v with
              | some c' =>
                  rw [hrec] at h
                  cases h
                  simp only [fetch, children,
                    lookupChild_append_self k c' cs hl]
                  exact ih _ c' hrec
              | none => rw [hrec] at h; cases h

/-- A chain of fresh nodes created by inserting into a value-free leaf
holds no value anywhere except at the inserted path. -/
theorem insert_new_fetch_ne (p : List K) (v : V) (t' : Trie K V)
    (h : (Trie.new none : Trie K V).insert p v = some t') :
    ∀ q, q ≠ p → t'.fetch q = none := by
  induction p generalizing t' with
  | nil =>
      simp only [insert, new, val] at h
      cases h
      intro q hq
      cases q with
      | nil => exact absurd rfl hq
      | cons j qr => simp [fetch, children, lookupChild]
  | cons k rest ih =>
      simp only [insert, new, children, lookupChild] at h
      match hrec : (Trie.new none : Trie K V).insert rest v with
      | some c' =>
          simp only [new] at hrec
          rw [hrec] at h
          cases h
          intro q hq
          cases q with
          | nil => simp [fetch, val]
          | cons j qr =>
              by_cases hj : j = k
              · subst hj
                have hqr : qr ≠ rest := fun hh => hq (by rw [hh])
                simp only [fetch, children, lookupChild, if_pos rfl]
                exact ih c' hrec qr hqr
              · simp [fetch, children, lookupChild, if_neg hj]
      | none =>
          simp only [new] at hrec
          rw [hrec] at h
          cases h

/-- Frame property: a successful insert at `p` leaves `fetch` unchanged
at every other path. -/
theorem fetch_insert_frame (t t' : Trie K V) (p : List K) (v : V)
    (h : t.insert p v = some t') :
    ∀ q, q ≠ p → t'.fetch q = t.fetch q := by
  induction p generalizing t t' with
  | nil =>
      cases t with
      | mk tv cs =>
          cases tv with
          | some w => simp [insert, val] at h
          | none =>
              simp only [insert, val] at h
              cases h
              intro q hq
              cases q with
              | nil => exact absurd rfl hq
              | cons j qr => simp [fetch, children]
  | cons k rest ih =>
      cases t with
      | mk tv cs =>
          simp only [insert, children] at h
          match hl : lookupChild k cs with
          | some c =>
              rw [hl] at h
              simp only [] at h
              match hrec : c.insert rest v with
              | some c' =>
                  rw [hrec] at h
                  cases h
                  intro q hq
                  cases q with
                  | nil => simp [fetch, val]
                  | cons j qr =>
                      by_cases hj : j = k
                      · subst hj
                        have hqr : qr ≠ rest := fun hh => hq (by rw [hh])
                        simp only [fetch, children,
                          lookupChild_replaceChild_self j c' cs c hl, hl]
                        exact ih c c' hrec qr hqr
                      · simp [fetch, children,
                          lookupChild_replaceChild_ne j k c' cs hj]
              | none => rw [hrec] at h; cases h
          | none =>
              rw [hl] at h
              simp only [] at h
              match hrec : (Trie.new none : Trie K V).insert rest v with
              | some c' =>
                  rw [hrec] at h
                  cases h
                  intro q hq
                  cases q with
                  | nil => simp [fetch, val]
                  | cons j qr =>
                      by_cases hj : j = k
                      · subst hj
                        have hqr : qr ≠ rest := fun hh => hq (by rw [hh])
                        simp only [fetch, children,
                          lookupChild_append_self j c' cs hl, hl]
                        exact insert_new_fetch_ne rest v c' hrec qr hqr
                      · simp [fetch, children,
                          lookupChild_append_ne j k c' cs hj]
              | none => rw [hrec] at h; cases h

/-! ### Lemmas about `insertAll`, `new`, and well-formedness -/

theorem new_fetch_nil (rv : Option V) : (Trie.new rv : Trie K V).fetch [] = rv := rfl

theorem new_fetch_cons (rv : Option V) (k : K) (rest : List K) :
    (Trie.new rv : Trie K V).fetch (k :: rest) = none := rfl

theorem new_fetch_none (q : List K) : (Trie.new none : Trie K V).fetch q = none := by
  cases q with
  | nil => rfl
  | cons k rest => rfl

/-- Values survive later successful inserts. -/
theorem insertAll_fetch_mono (l : List (List K × V)) :
    ∀ (t t' : Trie K V), t.insertAll l = some t' →
    ∀ q v, t.fetch q = some v → t'.fetch q = some v := by
  induction l with
  | nil =>
      intro t t' h q v hf
      simp only [insertAll] at h
      cases h
      exact hf
  | cons e rest ih =>
      intro t t' h q v hf
      obtain ⟨p, w⟩ := e
      simp only [insertAll] at h
      match h1 : t.insert p w with
      | some t₁ =>
          rw [h1] at h
          have hqp : q ≠ p := by
            intro he
            subst he
            have : t.insert q w = none := by
              rw [insert_eq_none_iff, hf]
              rfl
            rw [this] at h1
            cases h1
          have := fetch_insert_frame t t₁ p w h1 q hqp
          exact ih t₁ t' h q v (by rw [this, hf])
      | none => rw [h1] at h; cases h

/-- Every inserted pair is fetchable in the built trie. -/
theorem insertAll_fetch_mem (l : List (List K × V)) :
    ∀ (t t' : Trie K V), t.insertAll l = some t' →
    ∀ p v, (p, v) ∈ l → t'.fetch p = some v := by
  induction l with
  | nil => intro t t' h p v hm; cases hm
  | cons e rest ih =>
      intro t t' h p v hm
      obtain ⟨p₀, w₀⟩ := e
      simp only [insertAll] at h
      match h1 : t.insert p₀ w₀ with
      | some t₁ =>
          rw [h1] at h
          rcases List.mem_cons.mp hm with hm | hm
          · obtain ⟨he1, he2⟩ := Prod.mk.injEq .. ▸ hm
            subst he1
            subst he2
            exact insertAll_fetch_mono rest t₁ t' h p v
              (fetch_insert_self t t₁ p v h1)
          · exact ih t₁ t' h p v hm
      | none => rw [h1] at h; cases h

/-- A value fetchable after a sequence of inserts was either already
there or was one of the inserted pairs. -/
theorem insertAll_fetch_inv (l : List (List K × V)) :
    ∀ (t t' : Trie K V), t.insertAll l = some t' →
    ∀ q v, t'.fetch q = some v → t.fetch q = some v ∨ (q, v) ∈ l := by
  induction l with
  | nil =>
      intro t t' h q v hf
      simp only [insertAll] at h
      cases h
      exact Or.inl hf
  | cons e rest ih =>
      intro t t' h q v hf
      obtain ⟨p₀, w₀⟩ := e
      simp only [insertAll] at h
      match h1 : t.insert p₀ w₀ with
      | some t₁ =>
          rw [h1] at h
          rcases ih t₁ t' h q v hf with hc | hc
          · by_cases hqp : q = p₀
            · subst hqp
              have := fetch_insert_self t t₁ q w₀ h1
              rw [this] at hc
              cases hc
              exact Or.inr (List.mem_cons_self _ _)
            · have := fetch_insert_frame t t₁ p₀ w₀ h1 q hqp
              rw [this] at hc
              exact Or.inl hc
          · exact Or.inr (List.mem_cons_of_mem _ hc)
      | none => rw [h1] at h; cases h

/-- Paths never inserted into a trie built from `new none` fetch `none`. -/
theorem insertAll_fetch_none (l : List (List K × V)) (t' : Trie K V)
    (h : (Trie.new none : Trie K V).insertAll l = some t')
    (q : List K) (hq : ∀ pv ∈ l, q ≠ pv.1) : t'.fetch q = none := by
  cases hf : t'.fetch q with
  | none => rfl
  | some v =>
      rcases insertAll_fetch_inv l _ t' h q v hf with hc | hc
      · rw [new_fetch_none] at hc
        cases hc
      · exact absurd rfl (hq _ hc)

/-- In a trie built from `new none` by successful inserts, `fetch`
returns exactly the inserted pairs. -/
theorem insertAll_fetch_iff (l : List (List K × V)) (t' : Trie K V)
    (h : (Trie.new none : Trie K V).insertAll l = some t')
    (q : List K) (v : V) : t'.fetch q = some v ↔ (q, v) ∈ l := by
  constructor
  · intro hf
    rcases insertAll_fetch_inv l _ t' h q v hf with hc | hc
    · rw [new_fetch_none] at hc
      cases hc
    · exact hc
  · intro hm
    exact insertAll_fetch_mem l _ t' h q v hm

theorem lookupChild_mem (k : K) (cs : List (K × Trie K V)) (c : Trie K V)
    (h : lookupChild k cs = some c) : (k, c) ∈ cs := by
  induction cs with
  | nil => simp [lookupChild] at h
  | cons hd tl ih =>
      obtain ⟨k₀, c₀⟩ := hd
      by_cases hk : k = k₀
      · subst hk
        simp [lookupChild] at h
        subst h
        exact List.mem_cons_self _ _
      · simp only [lookupChild, if_neg hk] at h
        exact List.mem_cons_of_mem _ (ih h)

theorem lookupChild_eq_none_iff (k : K) (cs : List (K × Trie K V)) :
    lookupChild k cs = none ↔ k ∉ cs.map Prod.fst := by
  induction cs with
  | nil => simp [lookupChild]
  | cons hd tl ih =>
      obtain ⟨k₀, c₀⟩ := hd
      by_cases hk : k = k₀
      · subst hk
        simp [lookupChild]
      · simp [lookupChild, if_neg hk, ih, hk]

theorem mem_replaceChild (j k : K) (c d : Trie K V) (cs : List (K × Trie K V))
    (h : (j, d) ∈ replaceChild k c cs) : (j, d) ∈ cs ∨ d = c := by
  induction cs with
  | nil => simp [replaceChild] at h
  | cons hd tl ih =>
      obtain ⟨k₀, c₀⟩ := hd
      by_cases hk : k = k₀
      · subst hk
        simp only [replaceChild, if_pos rfl] at h
        rcases List.mem_cons.mp h with h | h
        · obtain ⟨h1, h2⟩ := Prod.mk.injEq .. ▸ h
          exact Or.inr h2
        · exact Or.inl (List.mem_cons_of_mem _ h)
      · simp only [replaceChild, if_neg hk] at h
        rcases List.mem_cons.mp h with h | h
        · exact Or.inl (h ▸ List.mem_cons_self _ _)
        · rcases ih h with h | h
          · exact Or.inl (List.mem_cons_of_mem _ h)
          · exact Or.inr h

theorem replaceChild_map_fst (k : K) (c : Trie K V) (cs : List (K × Trie K V)) :
    (replaceChild k c cs).map Prod.fst = cs.map Prod.fst := by
  induction cs with
  | nil => simp [replaceChild]
  | cons hd tl ih =>
      obtain ⟨k₀, c₀⟩ := hd
      by_cases hk : k = k₀
      · subst hk
        simp [replaceChild]
      · simp [replaceChild, if_neg hk, ih]

/-- The chain of fresh nodes created by inserting into `new none` is
well-formed. -/
theorem insert_new_WF (p : List K) (v : V) (t' : Trie K V)
    (h : (Trie.new none : Trie K V).insert p v = some t') : t'.WF := by
  induction p generalizing t' with
  | nil =>
      simp only [insert, new, val] at h
      cases h
      exact ⟨_, _, by simp, by intro k c hc; cases hc⟩
  | cons k rest ih =>
      have hstep : (Trie.new none : Trie K V).insert (k :: rest) v =
          match (Trie.new none : Trie K V).insert rest v with
          | some c' => some (.mk none [(k, c')])
          | none => none := rfl
      rw [hstep] at h
      match hrec : (Trie.new none : Trie K V).insert rest v with
      | some c' =>
          rw [hrec] at h
          cases h
          refine ⟨_, _, by simp, ?_⟩
          intro j d hd
          rcases List.mem_cons.mp hd with hd | hd
          · obtain ⟨h1, h2⟩ := Prod.mk.injEq .. ▸ hd
            subst h2
            exact ih _ hrec
          · cases hd
      | none => rw [hrec] at h; cases h

/-- A successful insert preserves well-formedness. -/
theorem insert_WF (p : List K) : ∀ (t t' : Trie K V) (v : V),
    t.WF → t.insert p v = some t' → t'.WF := by
  induction p with
  | nil =>
      intro t t' v hw h
      cases t with
      | mk tv cs =>
          cases tv with
          | some w => simp [insert, val] at h
          | none =>
              simp only [insert, val] at h
              cases h
              cases hw with
              | mk _ _ hnd hall => exact ⟨_, _, hnd, hall⟩
  | cons k rest ih =>
      intro t t' v hw h
      cases t with
      | mk tv cs =>
          simp only [insert, children] at h
          cases hw with
          | mk _ _ hnd hall =>
          match hl : lookupChild k cs with
          | some c =>
              rw [hl] at h
              simp only [] at h
              match hrec : c.insert rest v with
              | some c' =>
                  rw [hrec] at h
                  cases h
                  refine ⟨_, _, by rw [replaceChild_map_fst]; exact hnd, ?_⟩
                  intro j d hd
                  rcases mem_replaceChild j k c' d cs hd with hd | hd
                  · exact hall j d hd
                  · subst hd
                    exact ih c _ v (hall k c (lookupChild_mem k cs c hl)) hrec
              | none => rw [hrec] at h; cases h
          | none =>
              rw [hl] at h
              simp only [] at h
              match hrec : (Trie.new none : Trie K V).insert rest v with
              | some c' =>
                  rw [hrec] at h
                  cases h
                  refine ⟨_, _, ?_, ?_⟩
                  · rw [List.map_append]
                    simp only [List.map_cons, List.map_nil]
                    rw [List.nodup_append]
                    refine ⟨hnd, by simp, ?_⟩
                    intro a ha hb
                    simp only [List.mem_singleton] at hb
                    subst hb
                    exact (lookupChild_eq_none_iff _ cs).mp hl ha
                  · intro j d hd
                    rcases List.mem_append.mp hd with hd | hd
                    · exact hall j d hd
                    · simp only [List.mem_singleton] at hd
                      obtain ⟨h1, h2⟩ := Prod.mk.injEq .. ▸ hd
                      subst h2
                      exact insert_new_WF rest v _ hrec
              | none => rw [hrec] at h; cases h

/-- `new` is well-formed. -/
theorem new_WF (rv : Option V) : (Trie.new rv : Trie K V).WF :=
  ⟨_, _, by simp, by intro k c hc; cases hc⟩

/-- Building by successful inserts preserves well-formedness. -/
theorem insertAll_WF (l : List (List K × V)) :
    ∀ (t t' : Trie K V), t.WF → t.insertAll l = some t' → t'.WF := by
  induction l with
  | nil =>
      intro t t' hw h
      simp only [insertAll] at h
      cases h
      exact hw
  | cons e rest ih =>
      intro t t' hw h
      obtain ⟨p, w⟩ := e
      simp only [insertAll] at h
      match h1 : t.insert p w with
      | some t₁ =>
          rw [h1] at h
          exact ih t₁ t' (insert_WF p t t₁ w hw h1) h
      | none => rw [h1] at h; cases h

end Trie

/-- Paths that do not share a start are distinct. -/
theorem ne_of_not_sharesStart {K : Type u} {q r : List K}
    (h : ¬ sharesStart q r) : q ≠ r := by
  intro he
  subst he
  cases q with
  | nil => exact h trivial
  | cons k rest => exact h rfl

/-! ### Lemmas about `toList` -/

section ToList

variable {K : Type u} {V : Type v}

theorem toListChildren_mem (ka : List K) (cs : List (K × Trie K V))
    (q : List K) (v : V) :
    (q, v) ∈ toListChildren ka cs ↔
      ∃ k c, (k, c) ∈ cs ∧ (q, v) ∈ Trie.toList (ka ++ [k]) c := by
  induction cs with
  | nil => simp [toListChildren]
  | cons hd tl ih =>
      obtain ⟨k₀, c₀⟩ := hd
      simp only [toListChildren, List.mem_append, ih, List.mem_cons]
      constructor
      · rintro (h | ⟨k, c, hm, hq⟩)
        · exact ⟨k₀, c₀, Or.inl rfl, h⟩
        · exact ⟨k, c, Or.inr hm, hq⟩
      · rintro ⟨k, c, hm | hm, hq⟩
        · obtain ⟨h1, h2⟩ := Prod.mk.injEq .. ▸ hm
          subst h1
          subst h2
          exact Or.inl hq
        · exact Or.inr ⟨k, c, hm, hq⟩

/-- Every entry's path extends the accumulated path above the node. -/
theorem toList_mem_ext :
    ∀ (t : Trie K V) (ka q : List K) (v : V),
    (q, v) ∈ Trie.toList ka t → ∃ s, q = ka ++ s := by
  intro t
  induction t using Trie.my_ind with
  | h val cs ih =>
      intro ka q v hm
      simp only [Trie.toList, List.mem_append] at hm
      rcases hm with hm | hm
      · cases val with
        | some w =>
            simp only [List.mem_singleton] at hm
            obtain ⟨h1, h2⟩ := Prod.mk.injEq .. ▸ hm
            exact ⟨[], by simp [h1]⟩
        | none => cases hm
      · obtain ⟨k, c, hkc, hq⟩ := (toListChildren_mem ka cs q v).mp hm
        obtain ⟨s, hs⟩ := ih k c hkc (ka ++ [k]) q v hq
        exact ⟨k :: s, by simp [hs]⟩

theorem lookupChild_of_mem_nodup [DecidableEq K] (k : K) (c : Trie K V)
    (cs : List (K × Trie K V)) (hnd : (cs.map Prod.fst).Nodup)
    (hm : (k, c) ∈ cs) : Trie.lookupChild k cs = some c := by
  induction cs with
  | nil => cases hm
  | cons hd tl ih =>
      obtain ⟨k₀, c₀⟩ := hd
      simp only [List.map_cons, List.nodup_cons] at hnd
      rcases List.mem_cons.mp hm with hhd | htl
      · obtain ⟨h1, h2⟩ := Prod.mk.injEq .. ▸ hhd
        subst h1
        subst h2
        simp [Trie.lookupChild]
      · have hk : k ≠ k₀ := by
          intro he
          subst he
          exact hnd.1 (List.mem_map_of_mem Prod.fst htl)
        simp only [Trie.lookupChild, if_neg hk]
        exact ih hnd.2 htl

/-- In a well-formed trie, the traversal entries are exactly the
fetchable `(path, value)` pairs, with paths re-based at `ka`. -/
theorem toList_mem_iff_fetch [DecidableEq K] :
    ∀ (t : Trie K V), t.WF → ∀ (ka q : List K) (v : V),
    ((q, v) ∈ Trie.toList ka t ↔ ∃ s, q = ka ++ s ∧ t.fetch s = some v) := by
  intro t
  induction t using Trie.my_ind with
  | h val cs ih =>
      intro hwf ka q v
      cases hwf with
      | mk _ _ hnd hall =>
      simp only [Trie.toList, List.mem_append]
      constructor
      · rintro (hm | hm)
        · cases val with
          | some w =>
              simp only [List.mem_singleton] at hm
              obtain ⟨h1, h2⟩ := Prod.mk.injEq .. ▸ hm
              subst h1
              subst h2
              exact ⟨[], by simp, rfl⟩
          | none => cases hm
        · obtain ⟨k, c, hkc, hq⟩ := (toListChildren_mem ka cs q v).mp hm
          obtain ⟨s, hs, hf⟩ :=
            (ih k c hkc (hall k c hkc) (ka ++ [k]) q v).mp hq
          refine ⟨k :: s, by simp [hs], ?_⟩
          simp only [Trie.fetch, Trie.children_mk,
            lookupChild_of_mem_nodup k c cs hnd hkc]
          exact hf
      · rintro ⟨s, hs, hf⟩
        cases s with
        | nil =>
            simp only [Trie.fetch, Trie.val_mk] at hf
            subst hf
            simp at hs
            subst hs
            exact Or.inl (by simp)
        | cons k s' =>
            simp only [Trie.fetch, Trie.children_mk] at hf
            match hl : Trie.lookupChild k cs with
            | some c =>
                rw [hl] at hf
                simp only [] at hf
                have hkc := Trie.lookupChild_mem k cs c hl
                refine Or.inr ((toListChildren_mem ka cs q v).mpr
                  ⟨k, c, hkc, ?_⟩)
                refine (ih k c hkc (hall k c hkc) (ka ++ [k]) q v).mpr
                  ⟨s', by simp [hs], hf⟩
            | none => rw [hl] at hf; cases hf

/-- Two paths extending `ka` by different first keys: neither is a
prefix of the other. -/
theorem start_eq_of_isPrefix (ka : List K) (x y : K) (s s' : List K)
    (h : (ka ++ [x] ++ s) <+: (ka ++ [y] ++ s')) : x = y := by
  obtain ⟨u, hu⟩ := h
  induction ka with
  | nil =>
      simp only [List.nil_append, List.cons_append, List.append_assoc,
        List.cons.injEq] at hu
      exact hu.1
  | cons a ka ih =>
      simp only [List.cons_append, List.cons.injEq] at hu
      exact ih hu.2

/-- Traversal paths of distinct nodes of a well-formed trie are distinct. -/
theorem toList_paths_nodup [DecidableEq K] :
    ∀ (t : Trie K V), t.WF → ∀ ka : List K,
    ((Trie.toList ka t).map Prod.fst).Nodup := by
  intro t
  induction t using Trie.my_ind with
  | h val cs ih =>
      intro hwf ka
      cases hwf with
      | mk _ _ hnd hall =>
      have hchild : ∀ cs' : List (K × Trie K V),
          (∀ k c, (k, c) ∈ cs' → (k, c) ∈ cs) →
          (cs'.map Prod.fst).Nodup →
          ((toListChildren ka cs').map Prod.fst).Nodup := by
        intro cs'
        induction cs' with
        | nil => intro _ _; simp [toListChildren]
        | cons hd tl ihc =>
            obtain ⟨k₀, c₀⟩ := hd
            intro hsub hnd'
            simp only [List.map_cons, List.nodup_cons] at hnd'
            simp only [toListChildren, List.map_append, List.nodup_append]
            refine ⟨ih k₀ c₀ (hsub k₀ c₀ (List.mem_cons_self _ _))
              (hall k₀ c₀ (hsub k₀ c₀ (List.mem_cons_self _ _))) (ka ++ [k₀]),
              ihc (fun k c hm => hsub k c (List.mem_cons_of_mem _ hm)) hnd'.2,
              ?_⟩
            intro q hq hq'
            simp only [List.mem_map] at hq hq'
            obtain ⟨⟨qp, qv⟩, hqm, hqe⟩ := hq
            obtain ⟨⟨qp', qv'⟩, hqm', hqe'⟩ := hq'
            obtain ⟨s, hs⟩ := toList_mem_ext c₀ (ka ++ [k₀]) qp qv hqm
            obtain ⟨k₁, c₁, hk₁, hq₁⟩ :=
              (toListChildren_mem ka tl qp' qv').mp hqm'
            obtain ⟨s', hs'⟩ := toList_mem_ext c₁ (ka ++ [k₁]) qp' qv' hq₁
            have hpp : qp = qp' := by
              have h2 := hqe.trans hqe'.symm
              simpa using h2
            have heq : ka ++ [k₀] ++ s = ka ++ [k₁] ++ s' := by
              rw [← hs, ← hs', hpp]
            have hk : k₀ = k₁ :=
              start_eq_of_isPrefix ka k₀ k₁ s s' (heq ▸ List.prefix_rfl)
            subst hk
            exact hnd'.1 (List.mem_map_of_mem Prod.fst hk₁)
      cases val with
      | none =>
          simp only [Trie.toList, List.nil_append]
          exact hchild cs (fun _ _ h => h) hnd
      | some w =>
          simp only [Trie.toList, List.singleton_append, List.map_cons,
            List.nodup_cons]
          refine ⟨?_, hchild cs (fun _ _ h => h) hnd⟩
          intro hmem
          simp only [List.mem_map] at hmem
          obtain ⟨⟨qp, qv⟩, hqm, hqe⟩ := hmem
          obtain ⟨k, c, hkc, hq⟩ := (toListChildren_mem ka cs qp qv).mp hqm
          obtain ⟨s, hs⟩ := toList_mem_ext c (ka ++ [k]) qp qv hq
          have hqka : qp = ka := by simpa using hqe
          have hlen : ka.length < qp.length := by
            rw [hs]
            simp
          rw [hqka] at hlen
          omega

/-- Pre-order guarantee on the traversal list: the path of a later entry
is never a strict prefix of the path of an earlier entry. -/
theorem toList_pairwise :
    ∀ (t : Trie K V), t.WF → ∀ ka : List K,
    (Trie.toList ka t).Pairwise
      (fun a b => ¬ (b.1 <+: a.1 ∧ b.1 ≠ a.1)) := by
  intro t
  induction t using Trie.my_ind with
  | h val cs ih =>
      intro hwf ka
      cases hwf with
      | mk _ _ hnd hall =>
      have hchild : ∀ cs' : List (K × Trie K V),
          (∀ k c, (k, c) ∈ cs' → (k, c) ∈ cs) →
          (cs'.map Prod.fst).Nodup →
          (toListChildren ka cs').Pairwise
            (fun a b => ¬ (b.1 <+: a.1 ∧ b.1 ≠ a.1)) := by
        intro cs'
        induction cs' with
        | nil => intro _ _; simp [toListChildren]
        | cons hd tl ihc =>
            obtain ⟨k₀, c₀⟩ := hd
            intro hsub hnd'
            simp only [List.map_cons, List.nodup_cons] at hnd'
            simp only [toListChildren]
            rw [List.pairwise_append]
            refine ⟨ih k₀ c₀ (hsub k₀ c₀ (List.mem_cons_self _ _))
              (hall k₀ c₀ (hsub k₀ c₀ (List.mem_cons_self _ _))) (ka ++ [k₀]),
              ihc (fun k c hm => hsub k c (List.mem_cons_of_mem _ hm)) hnd'.2,
              ?_⟩
            rintro ⟨ap, av⟩ ha ⟨bp, bv⟩ hb ⟨hpre, _⟩
            obtain ⟨s, hs⟩ := toList_mem_ext c₀ (ka ++ [k₀]) ap av ha
            obtain ⟨k₁, c₁, hk₁, hb₁⟩ :=
              (toListChildren_mem ka tl bp bv).mp hb
            obtain ⟨s', hs'⟩ := toList_mem_ext c₁ (ka ++ [k₁]) bp bv hb₁
            simp only [] at hpre
            rw [hs, hs'] at hpre
            have hk : k₁ = k₀ := start_eq_of_isPrefix ka k₁ k₀ s' s hpre
            subst hk
            exact hnd'.1 (List.mem_map_of_mem Prod.fst hk₁)
      cases val with
      | none =>
          simp only [Trie.toList, List.nil_append]
          exact hchild cs (fun _ _ h => h) hnd
      | some w =>
          simp only [Trie.toList, List.singleton_append]
          rw [List.pairwise_cons]
          refine ⟨?_, hchild cs (fun _ _ h => h) hnd⟩
          rintro ⟨bp, bv⟩ hb ⟨hpre, hne⟩
          obtain ⟨k, c, hkc, hbq⟩ := (toListChildren_mem ka cs bp bv).mp hb
          obtain ⟨s, hs⟩ := toList_mem_ext c (ka ++ [k]) bp bv hbq
          simp only [] at hpre hne
          have hlen := hpre.length_le
          rw [hs] at hlen
          simp at hlen

/-- The traversal list of a well-formed trie has no duplicate entries. -/
theorem toList_nodup [DecidableEq K] (t : Trie K V) (hwf : t.WF)
    (ka : List K) : (Trie.toList ka t).Nodup :=
  (toList_paths_nodup t hwf ka).of_map

end ToList

/-! ### The iterator state machine produces exactly the pre-order traversal -/

section IterSim

variable {K : Type u} {V : Type v}

theorem next_didSelf (inner : Trie K V)
    (childIters : Option (List (TrieIter K V))) (current : Nat) (ka : List K) :
    TrieIter.next (.mk inner childIters current true ka)
      = nextRest inner childIters current ka := by
  simp [TrieIter.next]

theorem nextRest_noChildIters (inner : Trie K V) (current : Nat) (ka : List K) :
    nextRest inner (none : Option (List (TrieIter K V))) current ka
      = some (.done (.mk inner none current true ka)) := by
  simp [nextRest]

theorem nextRest_childIters (inner : Trie K V) (l : List (TrieIter K V))
    (current : Nat) (ka : List K) :
    nextRest inner (some l) current ka = nextLoop inner l current ka := by
  simp [nextRest]

theorem nextLoop_step (inner : Trie K V) (l : List (TrieIter K V)) (i : Nat)
    (ka : List K) (hlt : i < l.length) :
    nextLoop inner l i ka =
      match l[i].next with
      | none => none
      | some (.yield p v ci') =>
          some (.yield p v (.mk inner (some (l.set i ci')) i true ka))
      | some (.done ci') =>
          if i + 1 >= l.length then
            some (.done (.mk inner (some (l.set i ci')) (i + 1) true ka))
          else nextLoop inner (l.set i ci') (i + 1) ka := by
  rw [nextLoop]
  rw [dif_pos hlt]

theorem lt_length_of_drop_cons {l : List (TrieIter K V)} {i : Nat}
    {c : TrieIter K V} {rest : List (TrieIter K V)}
    (h : l.drop i = c :: rest) : i < l.length := by
  by_contra hc
  push_neg at hc
  rw [List.drop_eq_nil_of_le hc] at h
  cases h

theorem getElem_of_drop_cons {l : List (TrieIter K V)} {i : Nat}
    {c : TrieIter K V} {rest : List (TrieIter K V)}
    (h : l.drop i = c :: rest) (hlt : i < l.length) : l[i] = c := by
  induction l generalizing i with
  | nil => simp at hlt
  | cons hd tl ih =>
      cases i with
      | zero => simp at h ⊢; exact h.1
      | succ i =>
          simp only [List.drop_succ_cons] at h
          simp only [List.length_cons] at hlt
          simpa using ih h (by omega)

theorem drop_succ_of_drop_cons {l : List (TrieIter K V)} {i : Nat}
    {c : TrieIter K V} {rest : List (TrieIter K V)}
    (h : l.drop i = c :: rest) : l.drop (i + 1) = rest := by
  induction l generalizing i with
  | nil => simp at h
  | cons hd tl ih =>
      cases i with
      | zero => simpa using congrArg List.tail h
      | succ i =>
          simp only [List.drop_succ_cons] at h ⊢
          exact ih h

theorem drop_set_self {l : List (TrieIter K V)} {i : Nat}
    (a : TrieIter K V) (hlt : i < l.length) :
    (l.set i a).drop i = a :: l.drop (i + 1) := by
  induction l generalizing i with
  | nil => simp at hlt
  | cons hd tl ih =>
      cases i with
      | zero => simp
      | succ i =>
          simp only [List.set_cons_succ, List.drop_succ_cons]
          exact ih (by simpa using hlt)

/-- Iterators with equal `next` behaviour produce the same sequences. -/
theorem produces_of_next_eq (it₁ it₂ : TrieIter K V)
    (h : it₁.next = it₂.next) {xs : List (List K × V)}
    (hp : Produces it₂ xs) : Produces it₁ xs := by
  cases hp with
  | done _ it' hn => exact Produces.done it₁ it' (h.trans hn)
  | yield _ it' p v xs hn hc => exact Produces.yield it₁ it' p v xs (h.trans hn) hc

/-- The produced sequence is unique: `next` is a function. -/
theorem produces_unique {it : TrieIter K V} {xs ys : List (List K × V)}
    (h1 : Produces it xs) (h2 : Produces it ys) : xs = ys := by
  induction h1 generalizing ys with
  | done it it' hn =>
      cases h2 with
      | done _ it2 hn2 => rfl
      | yield _ it2 p v xs2 hn2 hc2 =>
          rw [hn] at hn2
          cases hn2
  | yield it it' p v xs hn hc ih =>
      cases h2 with
      | done _ it2 hn2 =>
          rw [hn] at hn2
          cases hn2
      | yield _ it2 p2 v2 xs2 hn2 hc2 =>
          rw [hn] at hn2
          injection hn2 with hs
          injection hs with hp hv hit
          subst hp
          subst hv
          subst hit
          rw [ih hc2]

/-- The child loop of a node concatenates whatever its remaining child
iterators produce. -/
theorem nextLoop_produces :
    ∀ (cs : List (TrieIter K V)) (xs : List (List K × V)), ProducesAll cs xs →
    ∀ (l : List (TrieIter K V)) (i : Nat) (inner : Trie K V) (ka : List K),
    i < l.length → l.drop i = cs →
    Produces (TrieIter.mk inner (some l) i true ka) xs := by
  intro cs xs hall
  induction hall with
  | nil =>
      intro l i inner ka hlt hdrop
      exfalso
      have := congrArg List.length hdrop
      simp at this
      omega
  | cons c rest xs₀ ys hc hrest ihrest =>
      induction hc with
      | done it it' hnext =>
          intro l i inner ka hlt hdrop
          have hgl : l[i] = it := getElem_of_drop_cons hdrop hlt
          have hdrop1 : l.drop (i + 1) = rest := drop_succ_of_drop_cons hdrop
          have hstep := nextLoop_step inner l i ka hlt
          rw [hgl, hnext] at hstep
          simp only [] at hstep
          by_cases hend : i + 1 >= l.length
          · rw [if_pos hend] at hstep
            have hrnil : rest = [] := by
              rw [← hdrop1]
              exact List.drop_eq_nil_of_le hend
            subst hrnil
            cases hrest
            simp only [List.nil_append]
            exact Produces.done _ _
              ((next_didSelf inner (some l) i ka).trans
                ((nextRest_childIters inner l i ka).trans hstep))
          · rw [if_neg hend] at hstep
            push_neg at hend
            have hP := ihrest (l.set i it') (i + 1) inner ka
              (by rw [List.length_set]; omega)
              (by rw [drop_succ_set]; exact hdrop1)
            simp only [List.nil_append]
            refine produces_of_next_eq _ _ ?_ hP
            rw [next_didSelf inner (some l) i ka, nextRest_childIters,
              hstep, next_didSelf, nextRest_childIters]
      | yield it it' p v xs₁ hnext hcont ihy =>
          intro l i inner ka hlt hdrop
          have hgl : l[i] = it := getElem_of_drop_cons hdrop hlt
          have hdrop1 : l.drop (i + 1) = rest := drop_succ_of_drop_cons hdrop
          have hstep := nextLoop_step inner l i ka hlt
          rw [hgl, hnext] at hstep
          simp only [] at hstep
          have hP := ihy (l.set i it') i inner ka
            (by rw [List.length_set]; exact hlt)
            (by rw [drop_set_self it' hlt, hdrop1])
          rw [List.cons_append]
          refine Produces.yield _ _ p v (xs₁ ++ ys) ?_ hP
          rw [next_didSelf inner (some l) i ka, nextRest_childIters, hstep]

/-- The freshly built child iterators produce the children's traversal
lists in order. -/
theorem producesAll_built (ka : List K) (cs : List (K × Trie K V))
    (hIH : ∀ k c, (k, c) ∈ cs → ∀ ka' : List K,
      Produces (TrieIter.mk c none 0 false ka') (Trie.toList ka' c)) :
    ProducesAll
      (cs.map fun kc => TrieIter.mk kc.2 none 0 false (ka ++ [kc.1]))
      (toListChildren ka cs) := by
  induction cs with
  | nil =>
      simp only [List.map_nil, toListChildren]
      exact ProducesAll.nil
  | cons hd tl ih =>
      obtain ⟨k, c⟩ := hd
      simp only [List.map_cons, toListChildren]
      exact ProducesAll.cons _ _ _ _
        (hIH k c (List.mem_cons_self _ _) (ka ++ [k]))
        (ih fun k' c' hm => hIH k' c' (List.mem_cons_of_mem _ hm))

/-- Main simulation theorem: a fresh iterator over `t` with accumulated
path `ka` produces exactly the pre-order traversal list of `t`. -/
theorem produces_toList :
    ∀ (t : Trie K V) (ka : List K),
    Produces (t.iter_impl ka) (Trie.toList ka t) := by
  intro t
  induction t using Trie.my_ind with
  | h val cs ih =>
      intro ka
      cases hcs : cs with
      | nil =>
          subst hcs
          cases val with
          | some v =>
              have h1 : ((Trie.mk (some v) [] : Trie K V).iter_impl ka).next
                  = some (.yield ka v
                    (.mk (.mk (some v) []) none 0 true ka)) := by
                simp [Trie.iter_impl, TrieIter.next, Trie.children, Trie.val]
              have h2 : TrieIter.next
                  (.mk (.mk (some v) ([] : List (K × Trie K V))) none 0 true ka)
                    = some (.done (.mk (.mk (some v) []) none 0 true ka)) := by
                rw [next_didSelf, nextRest_noChildIters]
              have : Trie.toList ka (Trie.mk (some v) ([] : List (K × Trie K V)))
                  = [(ka, v)] := by
                simp [Trie.toList, toListChildren]
              rw [this]
              exact Produces.yield _ _ ka v [] h1 (Produces.done _ _ h2)
          | none =>
              have h1 : ((Trie.mk (none : Option V)
                  ([] : List (K × Trie K V))).iter_impl ka).next
                  = some (.done (.mk (.mk none []) none 0 true ka)) := by
                simp [Trie.iter_impl, TrieIter.next, Trie.children, Trie.val,
                  nextRest]
              have : Trie.toList ka (Trie.mk (none : Option V)
                  ([] : List (K × Trie K V))) = [] := by
                simp [Trie.toList, toListChildren]
              rw [this]
              exact Produces.done _ _ h1
      | cons hd0 tl0 =>
          subst hcs
          set t0 : Trie K V := Trie.mk val (hd0 :: tl0) with ht0
          set built : List (TrieIter K V) :=
            (hd0 :: tl0).map
              (fun kc => TrieIter.mk kc.2 none 0 false (ka ++ [kc.1]))
            with hbuilt
          have hPA : ProducesAll built (toListChildren ka (hd0 :: tl0)) :=
            producesAll_built ka (hd0 :: tl0)
              (fun k c hm ka' => ih k c hm ka')
          have hlen : 0 < built.length := by simp [hbuilt]
          have hloop : Produces (TrieIter.mk t0 (some built) 0 true ka)
              (toListChildren ka (hd0 :: tl0)) :=
            nextLoop_produces built _ hPA built 0 t0 ka hlen (by simp)
          cases val with
          | some v =>
              have h1 : (t0.iter_impl ka).next
                  = some (.yield ka v (.mk t0 (some built) 0 true ka)) := by
                simp [ht0, hbuilt, Trie.iter_impl, TrieIter.next,
                  Trie.children, Trie.val]
              have h2 : Trie.toList ka t0
                  = (ka, v) :: toListChildren ka (hd0 :: tl0) := by
                simp [ht0, Trie.toList]
              rw [h2]
              exact Produces.yield _ _ ka v _ h1 hloop
          | none =>
              have h1 : (t0.iter_impl ka).next
                  = TrieIter.next (.mk t0 (some built) 0 true ka) := by
                rw [next_didSelf, nextRest_childIters]
                simp [ht0, hbuilt, Trie.iter_impl, TrieIter.next,
                  Trie.children, Trie.val, nextRest]
              have h2 : Trie.toList ka t0
                  = toListChildren ka (hd0 :: tl0) := by
                simp [ht0, Trie.toList]
              rw [h2]
              exact produces_of_next_eq _ _ h1 hloop

end IterSim

/-! ### Key and value iterators are projections -/

section Projections

variable {K : Type u} {V : Type v}

theorem producesK_of_produces {it : TrieIter K V} {xs : List (List K × V)}
    (h : Produces it xs) : ProducesK ⟨it⟩ (xs.map Prod.fst) := by
  induction h with
  | done it it' hn =>
      exact ProducesK.done ⟨it⟩ ⟨it'⟩ (by simp [TrieKeyIter.next, hn])
  | yield it it' p v xs hn hc ih =>
      exact ProducesK.yield ⟨it⟩ ⟨it'⟩ p _ (by simp [TrieKeyIter.next, hn]) ih

theorem producesV_of_produces {it : TrieIter K V} {xs : List (List K × V)}
    (h : Produces it xs) : ProducesV ⟨it⟩ (xs.map Prod.snd) := by
  induction h with
  | done it it' hn =>
      exact ProducesV.done ⟨it⟩ ⟨it'⟩ (by simp [TrieValueIter.next, hn])
  | yield it it' p v xs hn hc ih =>
      exact ProducesV.yield ⟨it⟩ ⟨it'⟩ v _ (by simp [TrieValueIter.next, hn]) ih

end Projections

/-! ### Round trip of the serialization model -/

section RoundTrip

variable {K : Type u} {V : Type v}

theorem isNull_eq_false {cv : CV} (h : cv ≠ CV.null) : cv.isNull = false := by
  cases cv with
  | null => exact absurd rfl h
  | bool b => rfl
  | int n => rfl
  | arr xs => rfl
  | map kvs => rfl

theorem decodeOpt_encodeOpt (encV : V → CV) (decV : CV → Option V)
    (hV : ∀ v, decV (encV v) = some v) (hVnull : ∀ v, encV v ≠ CV.null) :
    ∀ val : Option V, decodeOpt decV (encodeOpt encV val) = some val := by
  intro val
  cases val with
  | none => simp [encodeOpt, decodeOpt, CV.isNull]
  | some v =>
      simp only [encodeOpt, decodeOpt, isNull_eq_false (hVnull v),
        Bool.false_eq_true, if_false, hV v]

/-- Round trip: with codecs that decode their own encodings and never
encode a present value as the `null` absence marker, decoding an encoded
trie reconstructs it exactly. -/
theorem decodeTrie_encodeTrie (encK : K → CV) (decK : CV → Option K)
    (encV : V → CV) (decV : CV → Option V)
    (hK : ∀ k, decK (encK k) = some k)
    (hV : ∀ v, decV (encV v) = some v)
    (hVnull : ∀ v, encV v ≠ CV.null) :
    ∀ t : Trie K V,
    decodeTrie decK decV (encodeTrie encK encV t) = some t := by
  intro t
  induction t using Trie.my_ind with
  | h val cs ih =>
      have hch : ∀ cs' : List (K × Trie K V),
          (∀ k c, (k, c) ∈ cs' →
            decodeTrie decK decV (encodeTrie encK encV c) = some c) →
          decodeChildren decK decV (encodeChildren encK encV cs')
            = some cs' := by
        intro cs'
        induction cs' with
        | nil => intro _; simp [encodeChildren, decodeChildren]
        | cons hd tl ihc =>
            obtain ⟨k, c⟩ := hd
            intro hmem
            simp only [encodeChildren, decodeChildren, hK k,
              hmem k c (List.mem_cons_self _ _),
              ihc fun k' c' hm => hmem k' c' (List.mem_cons_of_mem _ hm)]
      simp only [encodeTrie, decodeTrie,
        decodeOpt_encodeOpt encV decV hV hVnull val,
        hch cs fun k c hm => ih k c hm]

end RoundTrip

/-- Integer codec: an integer encodes as a CBOR integer. -/
def encInt : Int → CV := fun n => CV.int n

/-- Integer decoder: accepts exactly CBOR integers. -/
def decInt : CV → Option Int := fun cv =>
  match cv with
  | CV.int n => some n
  | _ => none

/-- Modelled from the spec (§4.3): the unit value encodes as `null`,
the same bytes as absence — the documented ambiguity exercised by the
repository test `serialize_none_vs_unit`. -/
def encUnit : Unit → CV := fun _ => CV.null

/-- Modelled from the spec (§4.3): the unit value decodes from `null`. -/
def decUnit : CV → Option Unit := fun cv =>
  match cv with
  | CV.null => some ()
  | _ => none


/-! ### Sample tries used by witnesses -/

/-- The trie built by `insert([1], 5)` into an empty-rooted trie. -/
def sample5 : Trie Nat Nat := Trie.mk none [(1, Trie.mk (some 5) [])]

/-- The trie built by `insert([1], 1)` into an empty-rooted trie. -/
def sample1 : Trie Nat Nat := Trie.mk none [(1, Trie.mk (some 1) [])]

/-- The trie built by `insert([1], 1)` then `insert([1, 2], 12)`. -/
def sample2 : Trie Nat Nat :=
  Trie.mk none [(1, Trie.mk (some 1) [(2, Trie.mk (some 12) [])])]

/-- The trie of the repository test `serialize_simple`:
`insert([1, 1], 11)` then `insert([2, 1, 1], 211)`. -/
def sampleS : Trie Int Int :=
  Trie.mk none
    [(1, Trie.mk none [(1, Trie.mk (some 11) [])]),
     (2, Trie.mk none [(1, Trie.mk none [(1, Trie.mk (some 211) [])])])]

/-! ### The claims -/

/-- C1: for every trie built from non-conflicting inserts and every key
sequence `p` at which no value is yet stored, after a successful
`insert(p, v)`: `fetch p` returns `some v`; `fetch` on any strict prefix
of `p` that holds no value of its own returns `none`; and `fetch` on any
path not sharing an initial segment with `p` nor with any previously
inserted path returns `none`. -/
theorem claim_C1 {K : Type u} {V : Type v} [DecidableEq K]
    (l : List (List K × V)) (t t' : Trie K V) (p : List K) (v : V)
    (hbuilt : (Trie.new none : Trie K V).insertAll l = some t)
    (hempty : t.fetch p = none)
    (hins : t.insert p v = some t') :
    t'.fetch p = some v
    ∧ (∀ q, q <+: p → q ≠ p → t.fetch q = none → t'.fetch q = none)
    ∧ (∀ q, ¬ sharesStart q p → (∀ pv ∈ l, ¬ sharesStart q pv.1) →
        t'.fetch q = none) := by
  refine ⟨Trie.fetch_insert_self t t' p v hins, ?_, ?_⟩
  · intro q hqp hqne hq
    rw [Trie.fetch_insert_frame t t' p v hins q hqne]
    exact hq
  · intro q hqp hql
    have hqne : q ≠ p := ne_of_not_sharesStart hqp
    rw [Trie.fetch_insert_frame t t' p v hins q hqne]
    exact Trie.insertAll_fetch_none l t hbuilt q
      (fun pv hm => ne_of_not_sharesStart (hql pv hm))

/-- Witness for C1 at a concrete input. -/
theorem claim_C1_witness :
    ((Trie.new none : Trie Nat Nat).insertAll [([1], 1)] = some sample1)
    ∧ sample1.fetch [1, 2] = none
    ∧ sample1.insert [1, 2] 12 = some sample2
    ∧ (sample2.fetch [1, 2] = some 12
      ∧ (∀ q, q <+: [1, 2] → q ≠ [1, 2] → sample1.fetch q = none →
          sample2.fetch q = none)
      ∧ (∀ q, ¬ sharesStart q [1, 2] →
          (∀ pv ∈ [([1], 1)], ¬ sharesStart q pv.1) →
          sample2.fetch q = none)) :=
  ⟨rfl, rfl, rfl, claim_C1 [([1], 1)] sample1 sample2 [1, 2] 12 rfl rfl rfl⟩

/-- C2: inserting twice at the identical path fails loudly on the second
call while the first value stays in place, and `insert` fails in this way
exactly when the target path already holds a value. -/
theorem claim_C2 {K : Type u} {V : Type v} [DecidableEq K]
    (t : Trie K V) (p : List K) (v : V) :
    (t.insert p v = none ↔ ∃ w, t.fetch p = some w)
    ∧ ∀ t₁ w, t.insert p v = some t₁ →
        t₁.insert p w = none ∧ t₁.fetch p = some v := by
  constructor
  · rw [Trie.insert_eq_none_iff]
    simp [Option.isSome_iff_exists]
  · intro t₁ w h1
    have hf := Trie.fetch_insert_self t t₁ p v h1
    refine ⟨?_, hf⟩
    rw [Trie.insert_eq_none_iff, hf]
    rfl

/-- Witness for C2 at a concrete input. -/
theorem claim_C2_witness :
    ((Trie.new none : Trie Nat Nat).insert [1] 5 = some sample5)
    ∧ (sample5.insert [1] 6 = none ∧ sample5.fetch [1] = some 5) :=
  ⟨rfl, (claim_C2 (Trie.new none) [1] 5).2 sample5 6 rfl⟩

/-- C3: in a well-formed trie, if `p1` is a strict prefix of `p2` and
both paths hold values, then the entry at `p1` is yielded strictly
before the entry at `p2` by `iter()`. -/
theorem claim_C3 {K : Type u} {V : Type v} [DecidableEq K]
    (t : Trie K V) (out : List (List K × V))
    (p1 p2 : List K) (v1 v2 : V) (i j : Nat)
    (hi : i < out.length) (hj : j < out.length)
    (hwf : t.WF) (hprod : Produces t.iter out)
    (hpre : p1 <+: p2) (hne : p1 ≠ p2)
    (h1 : out.get ⟨i, hi⟩ = (p1, v1)) (h2 : out.get ⟨j, hj⟩ = (p2, v2)) :
    i < j := by
  have hout : out = Trie.toList [] t :=
    produces_unique hprod (produces_toList t [])
  subst hout
  have hpw := toList_pairwise t hwf []
  rw [List.pairwise_iff_get] at hpw
  rcases Nat.lt_trichotomy i j with h | h | h
  · exact h
  · exfalso
    subst h
    have h12 := h1.symm.trans h2
    obtain ⟨hp, hv⟩ := Prod.mk.injEq .. ▸ h12
    exact hne hp
  · exfalso
    have hR := hpw ⟨j, hj⟩ ⟨i, hi⟩ h
    rw [h1, h2] at hR
    exact hR ⟨hpre, hne⟩

/-- Witness for C3 at a concrete input. -/
theorem claim_C3_witness :
    sample2.WF
    ∧ Produces sample2.iter [([1], 1), ([1, 2], 12)]
    ∧ (0 : Nat) < 1 := by
  have hwf : sample2.WF :=
    Trie.insertAll_WF [([1], 1), ([1, 2], 12)] (Trie.new none) sample2
      (Trie.new_WF none) rfl
  have hprod : Produces sample2.iter [([1], 1), ([1, 2], 12)] :=
    produces_toList sample2 []
  exact ⟨hwf, hprod,
    claim_C3 sample2 [([1], 1), ([1, 2], 12)] [1] [1, 2] 1 12 0 1
      (by decide) (by decide) hwf hprod ⟨[2], rfl⟩ (by decide) rfl rfl⟩

/-- C4 (amended): for every trie built from non-conflicting inserts,
and for key/value codecs that decode their own encodings and never
encode a present value as the `null` absence marker, `decode(encode(t))`
reconstructs a trie with the identical traversal entries (hence the same
multiset) and identical `fetch` behaviour on every path. -/
theorem claim_C4 {K : Type u} {V : Type v} [DecidableEq K]
    (encK : K → CV) (decK : CV → Option K)
    (encV : V → CV) (decV : CV → Option V)
    (hK : ∀ k, decK (encK k) = some k)
    (hV : ∀ v, decV (encV v) = some v)
    (hVnull : ∀ v, encV v ≠ CV.null)
    (l : List (List K × V)) (t : Trie K V)
    (hbuilt : (Trie.new none : Trie K V).insertAll l = some t) :
    ∃ t', decodeTrie decK decV (encodeTrie encK encV t) = some t'
      ∧ (∀ ka, Trie.toList ka t' = Trie.toList ka t)
      ∧ (∀ q, t'.fetch q = t.fetch q) :=
  ⟨t, decodeTrie_encodeTrie encK decK encV decV hK hV hVnull t,
    fun _ => rfl, fun _ => rfl⟩

/-- Counterexample to C4 as stated: with the unit value type the codec
collapses `Some(())` to the `null` absence marker (exactly the behaviour
pinned by the repository test `serialize_none_vs_unit`), so after a round
trip `fetch` disagrees on the inserted path `[0]`. -/
theorem claim_C4_counterexample :
    ((Trie.new none : Trie Int Unit).insertAll [([0], ())]
        = some (Trie.mk none [(0, Trie.mk (some ()) [])]))
    ∧ (Trie.mk none [(0, Trie.mk (some ()) [])] : Trie Int Unit).fetch [0]
        = some ()
    ∧ decodeTrie decInt decUnit (encodeTrie encInt encUnit
        (Trie.mk none [(0, Trie.mk (some ()) [])]))
        = some (Trie.mk none [(0, Trie.mk none [])])
    ∧ (Trie.mk none [(0, Trie.mk none [])] : Trie Int Unit).fetch [0]
        = none :=
  ⟨rfl, rfl, rfl, rfl⟩

/-- Witness for the amended C4 at a concrete input. -/
theorem claim_C4_witness :
    (∀ k : Int, decInt (encInt k) = some k)
    ∧ (∀ v : Int, encInt v ≠ CV.null)
    ∧ ((Trie.new none : Trie Int Int).insertAll
        [([1, 1], 11), ([2, 1, 1], 211)] = some sampleS)
    ∧ (∃ t', decodeTrie decInt decInt (encodeTrie encInt encInt sampleS)
          = some t'
        ∧ (∀ ka, Trie.toList ka t' = Trie.toList ka sampleS)
        ∧ (∀ q, t'.fetch q = sampleS.fetch q)) :=
  ⟨fun k => rfl, fun v h => CV.noConfusion h, rfl,
    claim_C4 encInt decInt encInt decInt (fun k => rfl) (fun v => rfl)
      (fun v h => CV.noConfusion h) [([1, 1], 11), ([2, 1, 1], 211)] sampleS rfl⟩

/-- C5: the first half of the claim holds — `iter()` over the empty tree
(root with no value and no children) signals exhaustion on the first pull
and keeps signalling exhaustion on every further pull without failing.
The second half fails on the code: on the trie built by `insert([0], 0)`,
the first pull yields `([0], 0)`, the second signals exhaustion and
leaves `current` equal to `child_iters.len()`, and the third pull indexes
`child_iters[current]` out of bounds — a panic (`none`), not a normal
exhaustion signal. -/
theorem claim_C5 :
    ((((Trie.new none : Trie Nat Nat).iter).next
        = some (.done (.mk (.mk none []) none 0 true [])))
      ∧ (TrieIter.mk (Trie.mk none [] : Trie Nat Nat) none 0 true []).next
          = some (.done (.mk (.mk none []) none 0 true [])))
    ∧ ((Trie.new none : Trie Nat Nat).insert [0] 0
        = some (.mk none [(0, .mk (some 0) [])])
      ∧ ((Trie.mk none [(0, Trie.mk (some 0) [])] : Trie Nat Nat).iter).next
          = some (.yield [0] 0 (.mk (.mk none [(0, .mk (some 0) [])])
              (some [.mk (.mk (some 0) []) none 0 true [0]]) 0 true []))
      ∧ (TrieIter.mk (Trie.mk none [(0, Trie.mk (some 0) [])] : Trie Nat Nat)
            (some [.mk (.mk (some 0) []) none 0 true [0]]) 0 true []).next
          = some (.done (.mk (.mk none [(0, .mk (some 0) [])])
              (some [.mk (.mk (some 0) []) none 0 true [0]]) 1 true []))
      ∧ (TrieIter.mk (Trie.mk none [(0, Trie.mk (some 0) [])] : Trie Nat Nat)
            (some [.mk (.mk (some 0) []) none 0 true [0]]) 1 true []).next
          = none) := by
  refine ⟨⟨?_, ?_⟩, rfl, ?_, ?_, ?_⟩
  · simp [Trie.iter, Trie.iter_impl, Trie.new, TrieIter.next, Trie.children,
      Trie.val, nextRest]
  · rw [next_didSelf, nextRest_noChildIters]
  · simp [Trie.iter, Trie.iter_impl, TrieIter.next, Trie.children, Trie.val,
      nextRest, nextLoop]
  · simp [TrieIter.next, Trie.children, Trie.val, nextRest, nextLoop]
  · simp [TrieIter.next, Trie.children, Trie.val, nextRest, nextLoop]

/-- C6: the sequence produced by `iter()` on a trie built from
non-conflicting inserts has no duplicate entries and contains exactly
the inserted `(path, value)` pairs: nothing missing, duplicated or
invented, and every yielded path is the key sequence it was inserted
under. -/
theorem claim_C6 {K : Type u} {V : Type v} [DecidableEq K]
    (l : List (List K × V)) (t : Trie K V) (out : List (List K × V))
    (hbuilt : (Trie.new none : Trie K V).insertAll l = some t)
    (hprod : Produces t.iter out) :
    out.Nodup ∧ ∀ p v, ((p, v) ∈ out ↔ (p, v) ∈ l) := by
  have hwf : t.WF := Trie.insertAll_WF l _ t (Trie.new_WF none) hbuilt
  have hout : out = Trie.toList [] t :=
    produces_unique hprod (produces_toList t [])
  subst hout
  refine ⟨toList_nodup t hwf [], ?_⟩
  intro p v
  rw [toList_mem_iff_fetch t hwf [] p v]
  constructor
  · rintro ⟨s, hs, hf⟩
    simp only [List.nil_append] at hs
    subst hs
    exact (Trie.insertAll_fetch_iff l t hbuilt p v).mp hf
  · intro hm
    exact ⟨p, by simp, (Trie.insertAll_fetch_iff l t hbuilt p v).mpr hm⟩

/-- Witness for C6 at a concrete input. -/
theorem claim_C6_witness :
    ((Trie.new none : Trie Nat Nat).insertAll [([1], 1), ([1, 2], 12)]
        = some sample2)
    ∧ Produces sample2.iter [([1], 1), ([1, 2], 12)]
    ∧ ([([1], 1), ([1, 2], 12)] : List (List Nat × Nat)).Nodup
    ∧ ∀ p v, ((p, v) ∈ ([([1], 1), ([1, 2], 12)] : List (List Nat × Nat))
        ↔ (p, v) ∈ ([([1], 1), ([1, 2], 12)] : List (List Nat × Nat))) := by
  have hprod : Produces sample2.iter [([1], 1), ([1, 2], 12)] :=
    produces_toList sample2 []
  have h := claim_C6 [([1], 1), ([1, 2], 12)] sample2
    [([1], 1), ([1, 2], 12)] rfl hprod
  exact ⟨rfl, hprod, h.1, h.2⟩

/-- C7: the sequences produced by `keys()` and `values()` are exactly the
first and second projections, in order, of the sequence produced by
`iter()`. -/
theorem claim_C7 {K : Type u} {V : Type v}
    (t : Trie K V) (out : List (List K × V))
    (hprod : Produces t.iter out) :
    ProducesK t.keys (out.map Prod.fst)
    ∧ ProducesV t.values (out.map Prod.snd) :=
  ⟨producesK_of_produces hprod, producesV_of_produces hprod⟩

/-- Witness for C7 at a concrete input. -/
theorem claim_C7_witness :
    Produces sample2.iter [([1], 1), ([1, 2], 12)]
    ∧ ProducesK sample2.keys [[1], [1, 2]]
    ∧ ProducesV sample2.values [1, 12] := by
  have hprod : Produces sample2.iter [([1], 1), ([1, 2], 12)] :=
    produces_toList sample2 []
  have h := claim_C7 sample2 [([1], 1), ([1, 2], 12)] hprod
  exact ⟨hprod, h.1, h.2⟩

/-- C8: `fetch` is total — with every panic point of the Rust code made
explicit it never panics, and on any path it returns the ordinary
`fetch` result, in particular `none` on a missing path as a normal
outcome. -/
theorem claim_C8 {K : Type u} {V : Type v} [DecidableEq K]
    (t : Trie K V) (ks : List K) :
    t.fetchChecked ks = some (t.fetch ks) := by
  induction ks generalizing t with
  | nil => rfl
  | cons k rest ih =>
      cases hl : Trie.lookupChild k t.children with
      | some c => simp [Trie.fetchChecked, Trie.fetch, hl, ih]
      | none => simp [Trie.fetchChecked, Trie.fetch, hl]

/-- C9: `new(rv)` is a single node with no children whose own value is
`rv`; `fetch` on the empty key sequence returns `rv` and on any
non-empty key sequence returns `none`. -/
theorem claim_C9 {K : Type u} {V : Type v} [DecidableEq K] (rv : Option V) :
    (Trie.new rv : Trie K V).val = rv
    ∧ (Trie.new rv : Trie K V).children = []
    ∧ (Trie.new rv : Trie K V).fetch [] = rv
    ∧ ∀ (k : K) (ks : List K), (Trie.new rv : Trie K V).fetch (k :: ks) = none :=
  ⟨rfl, rfl, rfl, fun _ _ => rfl⟩

/-- C10: a successful insert at `p` changes the observable mapping at
exactly the path `p` — `fetch` at every other path is unchanged. -/
theorem claim_C10 {K : Type u} {V : Type v} [DecidableEq K]
    (t t' : Trie K V) (p q : List K) (v : V)
    (hins : t.insert p v = some t') (hne : q ≠ p) :
    t'.fetch q = t.fetch q :=
  Trie.fetch_insert_frame t t' p v hins q hne

/-- Witness for C10 at a concrete input. -/
theorem claim_C10_witness :
    (sample1.insert [2] 20
        = some (Trie.mk none [(1, Trie.mk (some 1) []), (2, Trie.mk (some 20) [])]))
    ∧ ([1] : List Nat) ≠ [2]
    ∧ (Trie.mk none [(1, Trie.mk (some 1) []), (2, Trie.mk (some 20) [])]
        : Trie Nat Nat).fetch [1] = sample1.fetch [1] :=
  ⟨rfl, by decide,
    claim_C10 sample1
      (Trie.mk none [(1, Trie.mk (some 1) []), (2, Trie.mk (some 20) [])])
      [2] [1] 20 rfl (by decide)⟩
